import Mathlib

/-
Verification of cleanup_cache_files.py: a utility that prunes dated
cache/report files.  Filenames are scanned for a date (YYYY-MM-DD or
YYYYMMDD); files whose extracted date is strictly older than a retention
window are deleted, unless the filename matches a skip token.

Strings are modelled as lists of characters, the filesystem as a flat
list of named entries, the two fixed regular expressions as sequences of
fixed-width digit groups and literal characters, and Python's
`dt.date` as a (year, month, day) record with the calendar-validity
check and proleptic-Gregorian ordinal of the standard library.
-/

namespace CleanupCache

/-- ASCII lowercasing of a string (Python str.lower restricted to ASCII). -/
def lower (s : List Char) : List Char := s.map Char.toLower

/-- Substring containment (Python `needle in hay`). -/
def containsSub (needle hay : List Char) : Bool :=
  match hay with
  | [] => needle.isEmpty
  | _ :: t => needle.isPrefixOf hay || containsSub needle t

/-! ## Calendar dates (Python `datetime.date`) -/

/-- A calendar date, as Python `datetime.date` stores it. -/
structure Date where
  year : Nat
  month : Nat
  day : Nat
deriving DecidableEq, Repr

/-- Gregorian leap-year test, as in Python `calendar.isleap`. -/
def isLeap (y : Nat) : Bool := (y % 4 == 0 && y % 100 != 0) || y % 400 == 0

/-- Days in a month of a given year. -/
def daysInMonth (y m : Nat) : Nat :=
  if m == 2 then (if isLeap y then 29 else 28)
  else if m == 4 || m == 6 || m == 9 || m == 11 then 30
  else 31

/-- Validity check performed by the `datetime.date` constructor
(MINYEAR = 1, MAXYEAR = 9999, month 1..12, day 1..days-in-month). -/
def isValidDate (y m d : Nat) : Bool :=
  1 ≤ y && y ≤ 9999 && 1 ≤ m && m ≤ 12 && 1 ≤ d && d ≤ daysInMonth y m

/-- The `datetime.date(y, m, d)` constructor: `some` a date, or `none`
when the constructor would raise ValueError. -/
def mkDate (y m d : Nat) : Option Date :=
  if isValidDate y m d then some ⟨y, m, d⟩ else none

/-- Days contributed by all years before year `y` (proleptic Gregorian). -/
def daysBeforeYear (y : Nat) : Nat :=
  365 * (y - 1) + (y - 1) / 4 - (y - 1) / 100 + (y - 1) / 400

/-- Days contributed by the months of year `y` before month `m`. -/
def daysBeforeMonth (y m : Nat) : Nat :=
  (List.range (m - 1)).foldl (fun acc i => acc + daysInMonth y (i + 1)) 0

/-- Python `date.toordinal()`: day number in the proleptic Gregorian
calendar, with 0001-01-01 mapped to 1. -/
def toOrdinal (d : Date) : Nat :=
  daysBeforeYear d.year + daysBeforeMonth d.year d.month + d.day

/-- Python `(today - file_date).days` for two calendar dates. -/
def ageDays (today fileDate : Date) : Int :=
  (toOrdinal today : Int) - (toOrdinal fileDate : Int)

/-! ## The two date regular expressions

The script uses exactly two patterns, both sequences of fixed-width
digit groups and literal characters; we embed that regex fragment. -/

/-- One token of the regex fragment: a capturing group of exactly `n`
digits, or a literal character. -/
inductive Tok where
  | digits (n : Nat)
  | lit (c : Char)
deriving DecidableEq, Repr

/-- Read exactly `n` digit characters, accumulating their numeric value
(as Python `int` does on the captured group). -/
def readDigitsAux : Nat → Nat → List Char → Option (Nat × List Char)
  | 0, acc, s => some (acc, s)
  | _ + 1, _, [] => none
  | n + 1, acc, c :: s =>
      if c.isDigit then readDigitsAux n (acc * 10 + (c.toNat - 48)) s else none

/-- Try to match a pattern at the head of a string; on success return
the captured group values and the remaining string. -/
def matchAt : List Tok → List Char → Option (List Nat × List Char)
  | [], s => some ([], s)
  | Tok.digits n :: ps, s =>
      match readDigitsAux n 0 s with
      | none => none
      | some (v, s1) =>
          match matchAt ps s1 with
          | none => none
          | some (gs, s2) => some (v :: gs, s2)
  | Tok.lit c :: ps, s =>
      match s with
      | [] => none
      | d :: s1 => if d == c then matchAt ps s1 else none

/-- Fuel-indexed scan for `finditer`; the string shrinks at every
recursive call, so fuel `s.length + 1` never runs out. -/
def finditerAux (p : List Tok) : Nat → List Char → List (List Nat)
  | 0, _ => []
  | _ + 1, [] =>
      match matchAt p [] with
      | some (gs, _) => [gs]
      | none => []
  | fuel + 1, c :: rest =>
      match matchAt p (c :: rest) with
      | some (gs, remaining) =>
          if remaining.length ≤ rest.length then
            gs :: finditerAux p fuel remaining
          else
            gs :: finditerAux p fuel rest
      | none => finditerAux p fuel rest

/-- Python `re.finditer`: scan left to right, collect non-overlapping
matches, resuming each scan at the end of the previous match (or one
character further for a zero-width match). -/
def finditer (p : List Tok) (s : List Char) : List (List Nat) :=
  finditerAux p (s.length + 1) s

/-- The hyphenated pattern `(\d{4})-(\d{2})-(\d{2})`. -/
def hyphenPattern : List Tok :=
  [Tok.digits 4, Tok.lit '-', Tok.digits 2, Tok.lit '-', Tok.digits 2]

/-- The compact pattern `(\d{4})(\d{2})(\d{2})`. -/
def compactPattern : List Tok :=
  [Tok.digits 4, Tok.digits 2, Tok.digits 2]

/-- DATE_PATTERNS from the script, in order: hyphenated first, compact second. -/
def DATE_PATTERNS : List (List Tok) := [hyphenPattern, compactPattern]

/-- Turn the three captured groups of a match into a date via the
`datetime.date` constructor (both patterns always capture three groups). -/
def dateOfGroups (gs : List Nat) : Option Date :=
  match gs with
  | [y, m, d] => mkDate y m d
  | _ => none

/-- The `for pattern in DATE_PATTERNS` loop of extract_date_from_filename:
skip a pattern with no matches; for the first pattern with matches, build
a date from the last match, returning `none` (Python None) when the
constructor raises. -/
def extractLoop : List (List Tok) → List Char → Option Date
  | [], _ => none
  | p :: ps, fn =>
      match (finditer p fn).getLast? with
      | none => extractLoop ps fn
      | some gs => dateOfGroups gs

/-- extract_date_from_filename from the script. -/
def extract_date_from_filename (fn : List Char) : Option Date :=
  extractLoop DATE_PATTERNS fn

/-! ## Skip tokens, suffixes and extensions -/

/-- should_skip from the script: after lowercasing, some token is a
substring of the filename. -/
def should_skip (name : List Char) (skip_tokens : List (List Char)) : Bool :=
  skip_tokens.any (fun token => containsSub (lower token) (lower name))

/-- pathlib `Path.suffix` of a filename: the part from the last dot on,
empty when the last dot is the first or the final character. -/
def pathSuffix (name : List Char) : List Char :=
  match name.reverse.findIdx? (fun c => c == '.') with
  | none => []
  | some j =>
      let i := name.length - 1 - j
      if 0 < i ∧ i < name.length - 1 then name.drop i else []

/-- normalize_extensions from the script: lowercase, and prepend a dot
when the extension does not already start with one. -/
def normalize_extensions (exts : List (List Char)) : List (List Char) :=
  exts.map (fun ext =>
    match ext with
    | '.' :: _ => lower ext
    | _ => '.' :: lower ext)

/-! ## Filesystem model and candidate scan -/

/-- One entry discovered by `root.rglob`, identified by its filename. -/
structure FSEntry where
  name : List Char
  isFile : Bool
deriving DecidableEq, Repr

/-- A directory tree, flattened to the entries `rglob` yields. -/
abbrev FS := List FSEntry

/-- gather_candidates from the script: keep regular files whose
lowercased suffix is in the extension list, which no skip token
matches, and whose filename yields a date. -/
def gather_candidates (root : FS) (extensions : List (List Char))
    (skip_tokens : List (List Char)) : List (FSEntry × Date) :=
  root.filterMap (fun e =>
    if !e.isFile then none
    else if !(extensions.contains (lower (pathSuffix e.name))) then none
    else if should_skip e.name skip_tokens then none
    else
      match extract_date_from_filename e.name with
      | none => none
      | some d => some (e, d))

/-! ## Cleanup -/

/-- One `[CLEANUP] path -> dated date (age days old)` log line. -/
structure LogLine where
  path : List Char
  date : Date
  ageDays : Int
deriving DecidableEq, Repr

/-- Remove every entry with the given name. -/
def removeName (fs : FS) (name : List Char) : FS :=
  fs.filter (fun e => !(e.name == name))

/-- Python `path.unlink(missing_ok)`: delete the entry; on a missing
path, succeed silently when `missing_ok` is set and raise otherwise. -/
def unlink (missing_ok : Bool) (fs : FS) (name : List Char) : Except Unit FS :=
  if fs.any (fun e => e.name == name) then .ok (removeName fs name)
  else if missing_ok then .ok fs
  else .error ()

/-- Result of one cleanup invocation: the returned pair, the per-file
log lines, and the final filesystem state. -/
structure CleanupResult where
  deleted : Nat
  deleted_paths : List (List Char)
  logs : List LogLine
  fs : FS
deriving DecidableEq, Repr

/-- The candidate loop of cleanup: log and count each file strictly
older than the window, and unlink it unless dry_run is set. -/
def cleanupLoop (today : Date) (keep_days : Int) (dry_run : Bool) :
    List (FSEntry × Date) → FS → Nat → List (List Char) → List LogLine →
    Except Unit CleanupResult
  | [], fs, deleted, paths, logs => .ok ⟨deleted, paths, logs, fs⟩
  | (e, file_date) :: rest, fs, deleted, paths, logs =>
      let age_days := ageDays today file_date
      if age_days > keep_days then
        let logs1 := logs ++ [⟨e.name, file_date, age_days⟩]
        match (if dry_run then .ok fs else unlink true fs e.name : Except Unit FS) with
        | .error err => .error err
        | .ok fs1 =>
            cleanupLoop today keep_days dry_run rest fs1 (deleted + 1)
              (paths ++ [e.name]) logs1
      else
        cleanupLoop today keep_days dry_run rest fs deleted paths logs

/-- cleanup from the script, with "today" (read once per invocation)
passed explicitly. -/
def cleanup (today : Date) (root : FS) (keep_days : Int)
    (extensions skip_tokens : List (List Char)) (dry_run : Bool) :
    Except Unit CleanupResult :=
  cleanupLoop today keep_days dry_run
    (gather_candidates root extensions skip_tokens) root 0 [] []

/-- The candidates the loop deletes: those whose age strictly exceeds
the window. -/
def eligible (today : Date) (keep_days : Int) (cands : List (FSEntry × Date)) :
    List (FSEntry × Date) :=
  cands.filter (fun c => keep_days < ageDays today c.2)

/-! ## Command line and main -/

/-- The skip-token default list from parse_args. -/
def defaultSkipTokens : List (List Char) := ["latest".toList]

/-- The effective skip-token list: argparse `action="append"` with
default `["latest"]` appends each user-supplied token to the default
list, so the result is the default followed by the user tokens. -/
def effective_skip_tokens (user_tokens : List (List Char)) : List (List Char) :=
  defaultSkipTokens ++ user_tokens

/-- Parsed command-line arguments as main consumes them. -/
structure Args where
  path : List Char
  days : Int
  extensions : List (List Char)
  user_skip_tokens : List (List Char)
  dry_run : Bool

/-- The retention window main passes to cleanup: `max(args.days, 0)`. -/
def effective_keep_days (args : Args) : Int := max args.days 0

/-- The informational line printed for a missing target directory. -/
def noDirMessage (path : List Char) : List Char :=
  ("[CLEANUP] Directory ".toList) ++ path ++
    (" does not exist. Nothing to do.".toList)

/-- What one run of main produced: an early return with the missing
directory message, or a completed cleanup. -/
inductive MainResult where
  | noDir (message : List Char)
  | ran (r : CleanupResult)
deriving DecidableEq, Repr

/-- Number of deletions a run of main performed. -/
def MainResult.deletedCount : MainResult → Nat
  | .noDir _ => 0
  | .ran r => r.deleted

/-- main from the script: on a missing directory, print the message and
return; otherwise run cleanup with normalized extensions, clamped
window, and the effective skip tokens. -/
def main (args : Args) (dirExists : Bool) (root : FS) (today : Date) :
    Except Unit MainResult :=
  if !dirExists then .ok (.noDir (noDirMessage args.path))
  else
    (cleanup today root (effective_keep_days args)
      (normalize_extensions args.extensions)
      (effective_skip_tokens args.user_skip_tokens) args.dry_run).map .ran

/-! ## Helper lemmas -/

theorem unlink_true_eq (fs : FS) (n : List Char) :
    unlink true fs n = .ok (removeName fs n) := by
  unfold unlink
  by_cases h : fs.any (fun e => e.name == n)
  · simp [h]
  · have hall : ∀ e ∈ fs, ¬(e.name == n) = true := by
      simpa [List.any_eq_true] using h
    have : removeName fs n = fs := by
      unfold removeName
      exact List.filter_eq_self.mpr (by
        intro e he
        simp [hall e he])
    simp [h, this]

theorem mem_eligible (today : Date) (keep_days : Int)
    (cands : List (FSEntry × Date)) (c : FSEntry × Date) :
    c ∈ eligible today keep_days cands ↔
      c ∈ cands ∧ keep_days < ageDays today c.2 := by
  unfold eligible
  simp

theorem cleanupLoop_eq (today : Date) (keep_days : Int) (dry_run : Bool)
    (cands : List (FSEntry × Date)) (fs : FS) (deleted : Nat)
    (paths : List (List Char)) (logs : List LogLine) :
    cleanupLoop today keep_days dry_run cands fs deleted paths logs =
      .ok ⟨deleted + (eligible today keep_days cands).length,
           paths ++ (eligible today keep_days cands).map (fun c => c.1.name),
           logs ++ (eligible today keep_days cands).map
             (fun c => ⟨c.1.name, c.2, ageDays today c.2⟩),
           if dry_run then fs
           else (eligible today keep_days cands).foldl
             (fun s c => removeName s c.1.name) fs⟩ := by
  induction cands generalizing fs deleted paths logs with
  | nil => simp [cleanupLoop, eligible]
  | cons c rest ih =>
      obtain ⟨e, d⟩ := c
      cases dry_run with
      | true =>
          by_cases h : keep_days < ageDays today d
          · have helig : eligible today keep_days ((e, d) :: rest) =
                (e, d) :: eligible today keep_days rest := by
              unfold eligible
              simp [h]
            simp only [cleanupLoop, gt_iff_lt, if_pos h, if_true, helig, ih]
            simp [Nat.add_comm, Nat.add_assoc, Nat.add_left_comm]
          · have helig : eligible today keep_days ((e, d) :: rest) =
                eligible today keep_days rest := by
              unfold eligible
              simp [h]
            simp only [cleanupLoop, gt_iff_lt, if_neg h, helig, ih]
      | false =>
          by_cases h : keep_days < ageDays today d
          · have helig : eligible today keep_days ((e, d) :: rest) =
                (e, d) :: eligible today keep_days rest := by
              unfold eligible
              simp [h]
            simp only [cleanupLoop, gt_iff_lt, if_pos h, if_false,
              unlink_true_eq, helig, ih]
            simp [Nat.add_comm, Nat.add_assoc, Nat.add_left_comm]
          · have helig : eligible today keep_days ((e, d) :: rest) =
                eligible today keep_days rest := by
              unfold eligible
              simp [h]
            simp only [cleanupLoop, gt_iff_lt, if_neg h, helig, ih]

theorem cleanup_eq (today : Date) (root : FS) (keep_days : Int)
    (extensions skip_tokens : List (List Char)) (dry_run : Bool) :
    cleanup today root keep_days extensions skip_tokens dry_run =
      .ok ⟨(eligible today keep_days
              (gather_candidates root extensions skip_tokens)).length,
           (eligible today keep_days
              (gather_candidates root extensions skip_tokens)).map
             (fun c => c.1.name),
           (eligible today keep_days
              (gather_candidates root extensions skip_tokens)).map
             (fun c => ⟨c.1.name, c.2, ageDays today c.2⟩),
           if dry_run then root
           else (eligible today keep_days
              (gather_candidates root extensions skip_tokens)).foldl
             (fun s c => removeName s c.1.name) root⟩ := by
  unfold cleanup
  rw [cleanupLoop_eq]
  simp

theorem mem_gather_candidates (root : FS) (ext toks : List (List Char))
    (e : FSEntry) (d : Date) :
    (e, d) ∈ gather_candidates root ext toks ↔
      (e ∈ root ∧ e.isFile = true ∧
       lower (pathSuffix e.name) ∈ ext ∧
       should_skip e.name toks = false ∧
       extract_date_from_filename e.name = some d) := by
  unfold gather_candidates
  rw [List.mem_filterMap]
  constructor
  · rintro ⟨a, ha, hf⟩
    by_cases h1 : a.isFile = true
    · by_cases h2 : lower (pathSuffix a.name) ∈ ext
      · by_cases h3 : should_skip a.name toks = true
        · simp [h1, h2, h3] at hf
        · rcases hm : extract_date_from_filename a.name with _ | d0
          · simp [h1, h2, h3, hm] at hf
          · simp [h1, h2, h3, hm] at hf
            obtain ⟨rfl, rfl⟩ := hf
            exact ⟨ha, h1, h2, (Bool.not_eq_true _).mp h3, hm⟩
      · simp [h1, h2] at hf
    · simp [h1] at hf
  · rintro ⟨he, h1, h2, h3, hm⟩
    exact ⟨e, he, by simp [h1, h2, h3, hm]⟩

theorem gather_name_inj (root : FS) (ext toks : List (List Char))
    (hnodup : (root.map FSEntry.name).Nodup)
    (c c' : FSEntry × Date) (hc : c ∈ gather_candidates root ext toks)
    (hc' : c' ∈ gather_candidates root ext toks)
    (hname : c.1.name = c'.1.name) : c = c' := by
  obtain ⟨e, d⟩ := c
  obtain ⟨e', d'⟩ := c'
  rw [mem_gather_candidates] at hc hc'
  have he : e = e' :=
    List.inj_on_of_nodup_map hnodup hc.1 hc'.1 hname
  subst he
  have hd : some d = some d' := hc.2.2.2.2 ▸ hc'.2.2.2.2
  simp only [Option.some.injEq] at hd
  simp [hd]

theorem mem_foldl_removeName (cands : List (FSEntry × Date)) (fs : FS)
    (e : FSEntry) (he : e ∈ fs)
    (hne : ∀ c ∈ cands, c.1.name ≠ e.name) :
    e ∈ cands.foldl (fun s c => removeName s c.1.name) fs := by
  induction cands generalizing fs with
  | nil => simpa using he
  | cons c rest ih =>
      simp only [List.foldl_cons]
      apply ih
      · unfold removeName
        refine List.mem_filter.mpr ⟨he, ?_⟩
        have : c.1.name ≠ e.name := hne c (by simp)
        simp [Ne.symm this]
      · intro c' hc'
        exact hne c' (by simp [hc'])

theorem extractLoop_valid (ps : List (List Tok)) (fn : List Char) (d : Date)
    (h : extractLoop ps fn = some d) :
    isValidDate d.year d.month d.day = true := by
  induction ps with
  | nil => simp [extractLoop] at h
  | cons p rest ih =>
      rw [extractLoop] at h
      rcases hl : (finditer p fn).getLast? with _ | gs
      · rw [hl] at h
        exact ih h
      · rw [hl] at h
        rcases gs with _ | ⟨y, gs1⟩
        · simp [dateOfGroups] at h
        · rcases gs1 with _ | ⟨m, gs2⟩
          · simp [dateOfGroups] at h
          · rcases gs2 with _ | ⟨dy, gs3⟩
            · simp [dateOfGroups] at h
            · rcases gs3 with _ | _
              · simp only [dateOfGroups, mkDate] at h
                by_cases hv : isValidDate y m dy = true
                · rw [if_pos hv] at h
                  obtain rfl := Option.some.injEq .. ▸ h
                  simpa using hv
                · simp [hv] at h
              · simp [dateOfGroups] at h
/-! ## Claims -/

/-- C1: extract_date_from_filename tries the hyphenated shape first and
the compact shape second; when a shape has non-overlapping occurrences in
the filename, the date returned is built from the last such occurrence of
the first shape that matches. -/
theorem extract_uses_last_occurrence_of_first_shape (fn : List Char)
    (gs : List Nat) :
    ((finditer hyphenPattern fn).getLast? = some gs →
        extract_date_from_filename fn = dateOfGroups gs) ∧
    (finditer hyphenPattern fn = [] →
        (finditer compactPattern fn).getLast? = some gs →
        extract_date_from_filename fn = dateOfGroups gs) := by
  constructor
  · intro h
    simp [extract_date_from_filename, DATE_PATTERNS, extractLoop, h]
  · intro h0 h
    simp [extract_date_from_filename, DATE_PATTERNS, extractLoop, h0, h]

/-- Witness for C1: a filename with two hyphenated dates and a compact
one; the last hyphenated occurrence wins. -/
theorem extract_uses_last_occurrence_of_first_shape_witness :
    (finditer hyphenPattern ("2024-01-02_2025-03-04_20260506.json".toList)).getLast? =
      some [2025, 3, 4] ∧
    extract_date_from_filename ("2024-01-02_2025-03-04_20260506.json".toList) =
      dateOfGroups [2025, 3, 4] ∧
    dateOfGroups [2025, 3, 4] = some ⟨2025, 3, 4⟩ :=
  ⟨by decide,
   (extract_uses_last_occurrence_of_first_shape
      ("2024-01-02_2025-03-04_20260506.json".toList) [2025, 3, 4]).1 (by decide),
   by decide⟩

/-- C2: when the first syntactically matching shape's last occurrence is
calendar-invalid, extraction returns none without trying the other
shape. -/
theorem invalid_match_short_circuits (fn : List Char) (gs : List Nat)
    (hinvalid : dateOfGroups gs = none) :
    ((finditer hyphenPattern fn).getLast? = some gs →
        extract_date_from_filename fn = none) ∧
    (finditer hyphenPattern fn = [] →
        (finditer compactPattern fn).getLast? = some gs →
        extract_date_from_filename fn = none) := by
  constructor
  · intro h
    simp [extract_date_from_filename, DATE_PATTERNS, extractLoop, h, hinvalid]
  · intro h0 h
    simp [extract_date_from_filename, DATE_PATTERNS, extractLoop, h0, h, hinvalid]

/-- Witness for C2: the hyphenated shape matches `2025-13-01` (month 13,
invalid), so the filename yields no date even though the compact shape
would have found the valid `20250101` further on. -/
theorem invalid_match_short_circuits_witness :
    dateOfGroups [2025, 13, 1] = none ∧
    (finditer hyphenPattern ("2025-13-01_20250101.json".toList)).getLast? =
      some [2025, 13, 1] ∧
    (finditer compactPattern ("2025-13-01_20250101.json".toList)).getLast? =
      some [2025, 1, 1] ∧
    dateOfGroups [2025, 1, 1] = some ⟨2025, 1, 1⟩ ∧
    extract_date_from_filename ("2025-13-01_20250101.json".toList) = none :=
  ⟨by decide, by decide, by decide, by decide,
   (invalid_match_short_circuits ("2025-13-01_20250101.json".toList)
      [2025, 13, 1] (by decide)).1 (by decide)⟩

/-- C8: extract_date_from_filename is a total function (it is defined by
structural recursion, never raising), and any date it returns is
calendar-valid: invalid matches surface as none. -/
theorem extract_total_and_returns_valid_dates (fn : List Char) (d : Date)
    (h : extract_date_from_filename fn = some d) :
    isValidDate d.year d.month d.day = true :=
  extractLoop_valid DATE_PATTERNS fn d h

/-- Witness for C8. -/
theorem extract_total_and_returns_valid_dates_witness :
    extract_date_from_filename ("report-2025-11-07.html".toList) =
      some ⟨2025, 11, 7⟩ ∧
    isValidDate 2025 11 7 = true :=
  ⟨by decide,
   extract_total_and_returns_valid_dates ("report-2025-11-07.html".toList)
     ⟨2025, 11, 7⟩ (by decide)⟩

/-- C10: with argparse append semantics, the effective skip-token list
always contains the default token "latest", so any filename containing
"latest" (case-insensitively) is skipped no matter which tokens the
command line adds. -/
theorem default_skip_token_always_present (user_tokens : List (List Char)) :
    ("latest".toList) ∈ effective_skip_tokens user_tokens ∧
    ∀ name, containsSub ("latest".toList) (lower name) = true →
      should_skip name (effective_skip_tokens user_tokens) = true := by
  constructor
  · simp [effective_skip_tokens, defaultSkipTokens]
  · intro name h
    unfold should_skip effective_skip_tokens defaultSkipTokens
    rw [List.any_append, Bool.or_eq_true]
    left
    rw [List.any_cons, List.any_nil, Bool.or_false]
    have hlow : lower ("latest".toList) = "latest".toList := by decide
    rw [hlow]
    exact h

/-- Witness for C10: even with an extra user token, "latest" stays in the
list and an uppercase LATEST filename is skipped. -/
theorem default_skip_token_always_present_witness :
    ("latest".toList) ∈ effective_skip_tokens ["tmp".toList] ∧
    should_skip ("data_LATEST_20250101.json".toList)
      (effective_skip_tokens ["tmp".toList]) = true :=
  ⟨(default_skip_token_always_present ["tmp".toList]).1,
   (default_skip_token_always_present ["tmp".toList]).2
     ("data_LATEST_20250101.json".toList) (by decide)⟩
/-- C3: for a tree with distinct filenames, cleanup deletes a candidate
exactly when its whole-day age strictly exceeds the retention window, so
a candidate whose age equals the window is retained. -/
theorem cleanup_deletes_iff_strictly_older (today : Date) (root : FS)
    (keep_days : Int) (ext toks : List (List Char)) (dry_run : Bool)
    (r : CleanupResult)
    (hnodup : (root.map FSEntry.name).Nodup)
    (hrun : cleanup today root keep_days ext toks dry_run = .ok r) :
    ∀ c ∈ gather_candidates root ext toks,
      (c.1.name ∈ r.deleted_paths ↔ keep_days < ageDays today c.2) := by
  intro c hc
  simp only [cleanup_eq, Except.ok.injEq] at hrun
  subst hrun
  simp only [List.mem_map]
  constructor
  · rintro ⟨c', hc'el, hname⟩
    rw [mem_eligible] at hc'el
    obtain ⟨hc'mem, hc'age⟩ := hc'el
    have : c' = c := gather_name_inj root ext toks hnodup c' c hc'mem hc hname
    subst this
    exact hc'age
  · intro hage
    exact ⟨c, (mem_eligible today keep_days _ c).mpr ⟨hc, hage⟩, rfl⟩

/-- Witness for C3, instantiating the spec's example: report_20250101.json
with today 2025-01-10 and window 5 has age 9 and is deleted. -/
theorem cleanup_deletes_iff_strictly_older_witness :
    (("report_20250101.json".toList) ∈ ["report_20250101.json".toList] ↔
      (5 : Int) < ageDays ⟨2025, 1, 10⟩ ⟨2025, 1, 1⟩) := by
  have h := cleanup_deletes_iff_strictly_older ⟨2025, 1, 10⟩
    [⟨"report_20250101.json".toList, true⟩] 5 [".json".toList]
    defaultSkipTokens false
    ⟨1, ["report_20250101.json".toList],
      [⟨"report_20250101.json".toList, ⟨2025, 1, 1⟩, 9⟩], []⟩
    (by decide) (by rfl)
  exact h (⟨"report_20250101.json".toList, true⟩, ⟨2025, 1, 1⟩) (by decide)

/-- C4: a dry run leaves the tree unchanged yet returns the same deleted
count, the same deleted paths and the same log lines as a real run. -/
theorem dry_run_is_faithful_preview (today : Date) (root : FS)
    (keep_days : Int) (ext toks : List (List Char)) :
    ∃ rpre rreal, cleanup today root keep_days ext toks true = .ok rpre ∧
      cleanup today root keep_days ext toks false = .ok rreal ∧
      rpre.fs = root ∧ rpre.deleted = rreal.deleted ∧
      rpre.deleted_paths = rreal.deleted_paths ∧ rpre.logs = rreal.logs := by
  refine ⟨_, _, cleanup_eq today root keep_days ext toks true,
    cleanup_eq today root keep_days ext toks false, ?_, ?_, ?_, ?_⟩ <;> simp

/-- C5: a negative requested window is clamped to zero by main, and a
candidate dated strictly in the future has negative age, so it is never
eligible and never logged, for any non-negative window. -/
theorem negative_window_clamped_and_future_retained (args : Args)
    (keep_days : Int) (today fileDate : Date)
    (hneg : args.days < 0) (hkeep : 0 ≤ keep_days)
    (hfut : toOrdinal today < toOrdinal fileDate) :
    effective_keep_days args = 0 ∧
    ageDays today fileDate < 0 ∧
    (∀ (cands : List (FSEntry × Date)) (c : FSEntry × Date), c.2 = fileDate →
      c ∉ eligible today keep_days cands) ∧
    (∀ root ext toks dry_run r,
      cleanup today root keep_days ext toks dry_run = .ok r →
      ∀ l ∈ r.logs, l.date ≠ fileDate) := by
  have hage : ageDays today fileDate < 0 := by
    unfold ageDays
    omega
  refine ⟨?_, hage, ?_, ?_⟩
  · unfold effective_keep_days
    omega
  · intro cands c hc2 hcel
    rw [mem_eligible] at hcel
    rw [hc2] at hcel
    omega
  · intro root ext toks dry_run r hrun l hl
    simp only [cleanup_eq, Except.ok.injEq] at hrun
    subst hrun
    simp only [List.mem_map] at hl
    obtain ⟨c, hcel, hlc⟩ := hl
    rw [mem_eligible] at hcel
    subst hlc
    intro hld
    simp only at hld
    rw [hld] at hcel
    omega

/-- Witness for C5. -/
theorem negative_window_clamped_and_future_retained_witness :
    effective_keep_days ⟨"cache".toList, -3, [".json".toList], [], false⟩ = 0 ∧
    ageDays ⟨2025, 1, 10⟩ ⟨2025, 1, 11⟩ < 0 := by
  have h := negative_window_clamped_and_future_retained
    ⟨"cache".toList, -3, [".json".toList], [], false⟩ 5
    ⟨2025, 1, 10⟩ ⟨2025, 1, 11⟩ (by decide) (by decide) (by decide)
  exact ⟨h.1, h.2.1⟩

/-- C6: a file whose lowercased name contains a lowercased skip token is
excluded from the candidates, and in a tree with distinct filenames it is
neither deleted nor removed, whatever its embedded date or age. -/
theorem skip_token_always_protects (toks : List (List Char)) (e : FSEntry)
    (hskip : should_skip e.name toks = true) :
    (∀ root ext d, (e, d) ∉ gather_candidates root ext toks) ∧
    (∀ today root keep_days ext dry_run r,
      (root.map FSEntry.name).Nodup → e ∈ root →
      cleanup today root keep_days ext toks dry_run = .ok r →
      e.name ∉ r.deleted_paths ∧ e ∈ r.fs) := by
  have hnotc : ∀ root ext d, (e, d) ∉ gather_candidates root ext toks := by
    intro root ext d hmem
    rw [mem_gather_candidates] at hmem
    rw [hmem.2.2.2.1] at hskip
    exact Bool.false_ne_true hskip
  refine ⟨hnotc, ?_⟩
  intro today root keep_days ext dry_run r hnodup hroot hrun
  simp only [cleanup_eq, Except.ok.injEq] at hrun
  subst hrun
  have hnoname : ∀ c ∈ eligible today keep_days
      (gather_candidates root ext toks), c.1.name ≠ e.name := by
    intro c hcel hname
    rw [mem_eligible] at hcel
    obtain ⟨hc, _⟩ := hcel
    obtain ⟨e', d'⟩ := c
    have hc' := hc
    rw [mem_gather_candidates] at hc'
    have he' : e' = e := List.inj_on_of_nodup_map hnodup hc'.1 hroot hname
    subst he'
    exact hnotc root ext d' hc
  constructor
  · intro hmem
    simp only [List.mem_map] at hmem
    obtain ⟨c, hcel, hname⟩ := hmem
    exact hnoname c hcel hname
  · cases dry_run with
    | true => simpa using hroot
    | false =>
        simp only [Bool.false_eq_true, if_false]
        exact mem_foldl_removeName _ root e hroot hnoname

/-- Witness for C6, on the spec's example data_latest_20250101.json. -/
theorem skip_token_always_protects_witness :
    should_skip ("data_latest_20250101.json".toList) defaultSkipTokens = true ∧
    ((⟨"data_latest_20250101.json".toList, true⟩ : FSEntry),
        (⟨2025, 1, 1⟩ : Date)) ∉
      gather_candidates [⟨"data_latest_20250101.json".toList, true⟩]
        [".json".toList] defaultSkipTokens :=
  ⟨by decide,
   (skip_token_always_protects defaultSkipTokens
      ⟨"data_latest_20250101.json".toList, true⟩ (by decide)).1
     [⟨"data_latest_20250101.json".toList, true⟩] [".json".toList]
     ⟨2025, 1, 1⟩⟩

/-- C7: with a missing target directory, main returns the informational
message without invoking cleanup, and that outcome counts zero
deletions. -/
theorem missing_directory_is_clean_noop (args : Args) (root : FS)
    (today : Date) :
    main args false root today = .ok (.noDir (noDirMessage args.path)) ∧
    (MainResult.noDir (noDirMessage args.path)).deletedCount = 0 := by
  constructor
  · simp [main]
  · rfl

/-- C9: unlink with missing_ok set succeeds silently on a path that no
longer exists, and such a vanished candidate is still counted and logged
as deleted by the cleanup loop. -/
theorem missing_file_deletion_is_silent (fs : FS) (e : FSEntry) (d : Date)
    (today : Date) (keep_days : Int)
    (habsent : fs.any (fun x => x.name == e.name) = false)
    (holder : keep_days < ageDays today d) :
    unlink true fs e.name = .ok fs ∧
    cleanupLoop today keep_days false [(e, d)] fs 0 [] [] =
      .ok ⟨1, [e.name], [⟨e.name, d, ageDays today d⟩], fs⟩ := by
  have hu : unlink true fs e.name = .ok fs := by
    unfold unlink
    rw [habsent]
    simp
  have hrm : removeName fs e.name = fs := by
    have hne : fs.any (fun x => x.name == e.name) ≠ true := by
      simp [habsent]
    have hall : ∀ x ∈ fs, ¬(x.name == e.name) = true := by
      simpa [List.any_eq_true] using hne
    unfold removeName
    exact List.filter_eq_self.mpr (by
      intro x hx
      simp [hall x hx])
  refine ⟨hu, ?_⟩
  rw [cleanupLoop_eq]
  unfold eligible
  simp [holder, hrm]
/-- Witness for C9: deleting an eligible candidate whose path is already
gone from an empty tree still succeeds, counts it and logs it. -/
theorem missing_file_deletion_is_silent_witness :
    unlink true [] ("report_20250101.json".toList) = .ok [] ∧
    cleanupLoop ⟨2025, 1, 10⟩ 5 false
      [(⟨"report_20250101.json".toList, true⟩, ⟨2025, 1, 1⟩)] [] 0 [] [] =
      .ok ⟨1, ["report_20250101.json".toList],
           [⟨"report_20250101.json".toList, ⟨2025, 1, 1⟩, 9⟩], []⟩ := by
  have h := missing_file_deletion_is_silent []
    ⟨"report_20250101.json".toList, true⟩ ⟨2025, 1, 1⟩ ⟨2025, 1, 10⟩ 5
    (by decide) (by decide)
  exact ⟨h.1, h.2⟩

end CleanupCache
